import Mathlib

/-!
Shallow embedding of the ESP32 noise-sensor firmware (`src/ESP32/ESP32.ino`).

Machine floats are embedded as exact rationals; the transcendental library
functions `sqrtf`/`log10f` are kept abstract as function parameters of the
definitions that use them, so every definition stays computable and the
algebraic structure of the source is preserved verbatim.
-/

namespace NoiseSensor

/-- Queue capacity from `xQueueCreate(5, sizeof(float))` in `setup`. -/
def QUEUE_CAP : ℕ := 5

/-- `NORM_DIV = 131072.0f`. -/
def NORM_DIV : ℚ := 131072

/-- `EPS_F = 1e-12f`. -/
def EPS_F : ℚ := 1 / 1000000000000

/-- `CAL_OFFSET_DBA = 96.0f`. -/
def CAL_OFFSET_DBA : ℚ := 96

/-- `BACKOFF_MAX = 30000` (ms) in `sendTask`. -/
def BACKOFF_MAX : ℕ := 30000

/-- Producer-side enqueue from `loop`: `xQueueSend(sendQueue, &dBA_1s, 0)`
with zero timeout; on failure (queue full at `QUEUE_CAP` entries) one
`xQueueReceive` drops the oldest entry and the value is sent again.
FIFO order: the head of the list is the oldest entry. -/
def qpush {α : Type} (v : α) (q : List α) : List α :=
  if q.length < QUEUE_CAP then q ++ [v] else q.drop 1 ++ [v]

/-- One iteration tail of `sendTask` after a delivery attempt with outcome
`ok`: on failure it sleeps `vTaskDelay(backoffMs)` and doubles the delay
capped at `BACKOFF_MAX`; on success it resets the delay to 1000 ms.
Returns the next delay together with the list of sleeps performed. -/
def senderIter (backoffMs : ℕ) (ok : Bool) : ℕ × List ℕ :=
  if ok then (1000, []) else (min (backoffMs * 2) BACKOFF_MAX, [backoffMs])

/-- Runs `senderIter` over a list of delivery outcomes, collecting every
sleep performed, in order. -/
def senderRun (backoffMs : ℕ) : List Bool → ℕ × List ℕ
  | [] => (backoffMs, [])
  | o :: os =>
    let p := senderIter backoffMs o
    let r := senderRun p.1 os
    (r.1, p.2 ++ r.2)

theorem senderRun_max_failures (k : ℕ) :
    senderRun 30000 (List.replicate k false) = (30000, List.replicate k 30000) := by
  induction k with
  | zero => rfl
  | succ n ih =>
    have hiter : senderIter 30000 false = (30000, [30000]) := rfl
    simp only [List.replicate_succ, senderRun, hiter, ih]
    rfl

theorem senderRun_append (d : ℕ) (os₁ os₂ : List Bool) :
    senderRun d (os₁ ++ os₂) =
      ((senderRun (senderRun d os₁).1 os₂).1,
       (senderRun d os₁).2 ++ (senderRun (senderRun d os₁).1 os₂).2) := by
  induction os₁ generalizing d with
  | nil => simp [senderRun]
  | cons o os ih => simp [senderRun, ih, List.append_assoc]

/-- C3: starting from `backoffMs = 1000`, five consecutive failures sleep
1, 2, 4, 8, 16 seconds, every further consecutive failure sleeps 30 seconds
(the cap), and any success resets the delay to 1000 ms; on a failure the
sleep uses the current delay and only then the delay doubles, capped. -/
theorem backoff_sequence :
    (∀ k : ℕ, (senderRun 1000 (List.replicate (5 + k) false)).2 =
      [1000, 2000, 4000, 8000, 16000] ++ List.replicate k 30000) ∧
    (∀ (d : ℕ) (os : List Bool), (senderRun d (os ++ [true])).1 = 1000) ∧
    (∀ d : ℕ, senderIter d false = (min (d * 2) BACKOFF_MAX, [d])) ∧
    (∀ d : ℕ, senderIter d true = (1000, [])) := by
  refine ⟨?_, ?_, ?_, ?_⟩
  · intro k
    have hsplit : List.replicate (5 + k) false =
        List.replicate 5 false ++ List.replicate k false := List.replicate_add 5 k false
    rw [hsplit, senderRun_append]
    have h1 : senderRun 1000 (List.replicate 5 false) =
        (30000, [1000, 2000, 4000, 8000, 16000]) := by rfl
    rw [h1, senderRun_max_failures]
  · intro d os
    rw [senderRun_append]
    rfl
  · intro d; rfl
  · intro d; rfl

/-- C4: the producer-side push never blocks; on a full queue (capacity 5)
exactly the oldest entry is evicted before the new value is appended, so
pushing capacity + 1 values into an empty queue leaves exactly capacity
entries, namely all but the first pushed value, the newest one last. -/
theorem queue_push_evicts_oldest :
    (∀ (q : List ℚ) (v : ℚ), q.length = QUEUE_CAP →
      qpush v q = q.drop 1 ++ [v] ∧ (qpush v q).length = QUEUE_CAP) ∧
    (∀ vs : List ℚ, vs.length = QUEUE_CAP + 1 →
      vs.foldl (fun q v => qpush v q) [] = vs.drop 1 ∧
      (vs.foldl (fun q v => qpush v q) []).length = QUEUE_CAP ∧
      (vs.foldl (fun q v => qpush v q) []).getLast? = vs.getLast? ∧
      (vs.Nodup → ∀ a : ℚ, vs.head? = some a →
        a ∉ vs.foldl (fun q v => qpush v q) [])) := by
  constructor
  · intro q v h
    constructor
    · simp [qpush, h, QUEUE_CAP]
    · simp [qpush, h, QUEUE_CAP]
  · intro vs hlen
    match vs, hlen with
    | [a, b, c, d, e, f], _ =>
      refine ⟨?_, ?_, ?_, ?_⟩
      · simp [qpush, QUEUE_CAP]
      · simp [qpush, QUEUE_CAP]
      · simp [qpush, QUEUE_CAP]
      · intro hnd x hx
        simp at hx
        subst hx
        simp [qpush, QUEUE_CAP]
        simp [List.nodup_cons] at hnd
        tauto

/-- Witness for the queue eviction theorem at the concrete pushes
1, 2, 3, 4, 5, 6. -/
theorem queue_push_evicts_oldest_witness :
    ([1, 2, 3, 4, 5, 6] : List ℚ).foldl (fun q v => qpush v q) [] =
      [2, 3, 4, 5, 6] :=
  (queue_push_evicts_oldest.2 [1, 2, 3, 4, 5, 6] (by rfl)).1

/-! ### Display ring buffer (`ringBuf`, `head`, `pushSample`, `drawGraph`) -/

/-- `GRAPH_W = 128` (= `SCREEN_WIDTH`), the capacity of `ringBuf`. -/
abbrev GRAPH_W : ℕ := 128

/-- The display ring: `float ringBuf[SCREEN_WIDTH]` together with the single
write cursor `uint8_t head`; the increment `head = (head + 1) % GRAPH_W`
keeps the cursor below `GRAPH_W`, so every access reduces it mod `GRAPH_W`. -/
structure RingState where
  buf : Fin GRAPH_W → ℚ
  head : ℕ

/-- `pushSample`: `ringBuf[head] = dB; head = (head + 1) % GRAPH_W;`. -/
def pushSample (dB : ℚ) (s : RingState) : RingState :=
  ⟨Function.update s.buf ⟨s.head % GRAPH_W, Nat.mod_lt _ (by norm_num)⟩ dB,
   (s.head + 1) % GRAPH_W⟩

/-- The ring contents oldest-first, in the order `drawGraph` walks them:
index `i` reads `ringBuf[(head + i) % GRAPH_W]`. -/
def ringContents (s : RingState) : List ℚ :=
  List.ofFn fun i : Fin GRAPH_W => s.buf ⟨(s.head + i.val) % GRAPH_W, Nat.mod_lt _ (by norm_num)⟩

/-- Folding `pushSample` over a list of values, oldest push first. -/
def pushAll (s : RingState) (vs : List ℚ) : RingState :=
  vs.foldl (fun t v => pushSample v t) s

theorem ringContents_length (s : RingState) : (ringContents s).length = GRAPH_W :=
  List.length_ofFn _

theorem ringContents_pushSample (v : ℚ) (s : RingState) :
    ringContents (pushSample v s) = (ringContents s).drop 1 ++ [v] := by
  have h128 : GRAPH_W = 128 := rfl
  apply List.ext_getElem
  · rw [ringContents_length, List.length_append, List.length_drop, ringContents_length]
    norm_num
  · intro i h1 h2
    rw [ringContents_length, h128] at h1
    rcases Nat.lt_or_ge i 127 with hlt | hge
    · have hr1 : i < ((ringContents s).drop 1).length := by
        rw [List.length_drop, ringContents_length, h128]
        omega
      rw [List.getElem_append_left hr1, List.getElem_drop]
      simp only [ringContents, pushSample, List.getElem_ofFn, Function.update_apply]
      rw [if_neg ?hneg]
      case hneg =>
        simp only [Fin.mk.injEq, h128]
        omega
      congr 1
      apply Fin.ext
      simp only [h128]
      show ((s.head + 1) % 128 + i) % 128 = (s.head + (1 + i)) % 128
      omega
    · have h127 : i = 127 := by omega
      subst h127
      have hr1 : ((ringContents s).drop 1).length ≤ 127 := by
        rw [List.length_drop, ringContents_length]
        omega
      rw [List.getElem_append_right hr1]
      simp only [ringContents, pushSample, List.getElem_ofFn, Function.update_apply]
      rw [if_pos ?hpos]
      case hpos =>
        apply Fin.ext
        simp only [h128]
        show ((s.head + 1) % 128 + 127) % 128 = s.head % 128
        omega
      have hlen : ((ringContents s).drop 1).length = 127 := by
        rw [List.length_drop, ringContents_length]
        omega
      simp only [List.getElem_singleton]

theorem ringContents_pushAll (vs : List ℚ) (s : RingState) :
    ringContents (pushAll s vs) = (ringContents s ++ vs).drop vs.length := by
  induction vs generalizing s with
  | nil => simp [pushAll]
  | cons v vs ih =>
    have hcons : pushAll s (v :: vs) = pushAll (pushSample v s) vs := rfl
    rw [hcons, ih, ringContents_pushSample]
    have hne : ringContents s ≠ [] := by
      intro h
      have := ringContents_length s
      rw [h] at this
      simp at this
    rcases List.exists_cons_of_ne_nil hne with ⟨c, t, hct⟩
    rw [hct]
    simp [List.append_assoc]

/-- C8: pushing `GRAPH_W + k` values (k ≥ 1) into the ring leaves exactly
`GRAPH_W` entries, namely the last `GRAPH_W` pushed values in push order;
when the pushed values are distinct, none of the first `k` survives. -/
theorem ring_buffer_eviction (s : RingState) (vs : List ℚ) (k : ℕ)
    (hlen : vs.length = GRAPH_W + k) (_hk : 1 ≤ k) :
    ringContents (pushAll s vs) = vs.drop k ∧
    (ringContents (pushAll s vs)).length = GRAPH_W ∧
    (vs.Nodup → ∀ a ∈ vs.take k, a ∉ ringContents (pushAll s vs)) := by
  have hmain : ringContents (pushAll s vs) = vs.drop k := by
    rw [ringContents_pushAll, hlen]
    have hlen2 : GRAPH_W + k = (ringContents s).length + k := by
      rw [ringContents_length]
    rw [hlen2, List.drop_append]
  refine ⟨hmain, ?_, ?_⟩
  · rw [hmain, List.length_drop, hlen]
    omega
  · intro hnd a ha
    rw [hmain]
    have hdisj : List.Disjoint (vs.take k) (vs.drop k) :=
      List.disjoint_take_drop hnd le_rfl
    exact fun hmem => hdisj ha hmem

/-- Witness for the ring-buffer eviction theorem: 129 distinct pushes onto
the freshly initialized ring (all slots 50, cursor 0) leave the last 128. -/
theorem ring_buffer_eviction_witness :
    ringContents (pushAll ⟨fun _ => 50, 0⟩ ((List.range 129).map fun n => (n : ℚ))) =
      ((List.range 129).map fun n => (n : ℚ)).drop 1 :=
  (ring_buffer_eviction ⟨fun _ => 50, 0⟩ ((List.range 129).map fun n => (n : ℚ)) 1
    (by rw [List.length_map]; exact List.length_range 129) le_rfl).1

/-! ### Header classification (`drawHeader`) -/

/-- The three labels `drawHeader` can render. -/
inductive NoiseLabel where
  | ok
  | caution
  | high
deriving DecidableEq

/-- `int limit = 55;` in `drawHeader`: a fixed constant, independent of time
of day. -/
def LIMIT_DB : ℤ := 55

/-- Label selection in `drawHeader`: start from `OK`, switch to `HIGH` when
`currentDb > limit + 5`, else to `CAUTION` when `currentDb > limit - 5`. -/
def drawHeaderLabel (currentDb : ℚ) : NoiseLabel :=
  if currentDb > (LIMIT_DB : ℚ) + 5 then .high
  else if currentDb > (LIMIT_DB : ℚ) - 5 then .caution
  else .ok

/-- C9: the rendered label is `OK` iff the value is at most `limit - 5`,
`CAUTION` iff it lies in `(limit - 5, limit + 5]`, and `HIGH` iff it exceeds
`limit + 5`, for the fixed threshold `limit = 55`. -/
theorem header_classification (v : ℚ) :
    (drawHeaderLabel v = .ok ↔ v ≤ (LIMIT_DB : ℚ) - 5) ∧
    (drawHeaderLabel v = .caution ↔ (LIMIT_DB : ℚ) - 5 < v ∧ v ≤ (LIMIT_DB : ℚ) + 5) ∧
    (drawHeaderLabel v = .high ↔ (LIMIT_DB : ℚ) + 5 < v) := by
  have hL : (LIMIT_DB : ℚ) = 55 := by norm_num [LIMIT_DB]
  unfold drawHeaderLabel
  rw [hL]
  split_ifs with h1 h2
  · exact ⟨⟨fun h => absurd h (by decide), fun h => False.elim (by linarith)⟩,
      ⟨fun h => absurd h (by decide), fun h => False.elim (by linarith [h.2])⟩,
      ⟨fun _ => h1, fun _ => rfl⟩⟩
  · exact ⟨⟨fun h => absurd h (by decide), fun h => False.elim (by linarith)⟩,
      ⟨fun _ => ⟨h2, by linarith⟩, fun _ => rfl⟩,
      ⟨fun h => absurd h (by decide), fun h => False.elim (by linarith)⟩⟩
  · exact ⟨⟨fun _ => by linarith, fun _ => rfl⟩,
      ⟨fun h => absurd h (by decide), fun h => False.elim (by linarith [h.1])⟩,
      ⟨fun h => absurd h (by decide), fun h => False.elim (by linarith)⟩⟩

/-- Witness for the header classification at 50, 55 and 61 dB. -/
theorem header_classification_witness :
    drawHeaderLabel 50 = .ok ∧ drawHeaderLabel 55 = .caution ∧
      drawHeaderLabel 61 = .high :=
  ⟨((header_classification 50).1).mpr (by norm_num [LIMIT_DB]),
   ((header_classification 55).2.1).mpr (by norm_num [LIMIT_DB]),
   ((header_classification 61).2.2).mpr (by norm_num [LIMIT_DB])⟩

/-! ### Audio pipeline (`OnePoleHPF`, `calculateMean`, `calculateSumOfSquares`,
`convertToDecibels`, `accumulateAudioData`, the 1-second window, `loop`) -/

/-- `struct OnePoleHPF { float a = 0.995f; float y = 0.0f; float x_prev = 0.0f; }`. -/
structure OnePoleHPF where
  a : ℚ := 199 / 200
  y : ℚ := 0
  x_prev : ℚ := 0
deriving DecidableEq

/-- `OnePoleHPF::process`: `y = a * (y + x - x_prev); x_prev = x; return y;`.
Returns the updated filter state together with the output sample. -/
def OnePoleHPF.process (st : OnePoleHPF) (x : ℚ) : OnePoleHPF × ℚ :=
  let y1 := st.a * (st.y + x - st.x_prev)
  (⟨st.a, y1, x⟩, y1)

/-- The global `hpf` object, default-constructed in the firmware image. -/
def hpfInit : OnePoleHPF := {}

/-- The arithmetic shift `rx_buf[i] >> 14` on a signed 32-bit sample
(arithmetic right shift is floor division by 2^14). -/
def shift14 (r : ℤ) : ℤ := Int.fdiv r 16384

/-- `calculateMean`: sums `rx_buf[i] >> 14` into a wide accumulator and
divides by `num_samples` in floating point. -/
def calculateMean (raw : List ℤ) : ℚ :=
  (((raw.map shift14).sum : ℤ) : ℚ) / (raw.length : ℚ)

/-- Loop body of `calculateSumOfSquares`: subtract the block mean, divide by
`NORM_DIV`, run the one-pole high-pass filter, and accumulate the square of
the filtered value. -/
def cssStep (mean : ℚ) (acc : ℚ × OnePoleHPF) (r : ℤ) : ℚ × OnePoleHPF :=
  let s := (((shift14 r : ℤ) : ℚ) - mean) / NORM_DIV
  let p := acc.2.process s
  (acc.1 + p.2 * p.2, p.1)

/-- `calculateSumOfSquares`: fold the per-sample body over the block,
starting from a zero accumulator and the current filter state. The filter
state is threaded through and returned (in the firmware `hpf` is a global
mutated in place). -/
def calculateSumOfSquares (hpf : OnePoleHPF) (raw : List ℤ) (mean : ℚ) : ℚ × OnePoleHPF :=
  raw.foldl (cssStep mean) (0, hpf)

/-- `convertToDecibels`: `20.0f * log10f(fmaxf(rms_value, EPS_F)) + CAL_OFFSET_DBA`,
with the library `log10f` abstracted as the parameter `log10F`. -/
def convertToDecibels (log10F : ℚ → ℚ) (rms_value : ℚ) : ℚ :=
  20 * log10F (max rms_value EPS_F) + CAL_OFFSET_DBA

/-- The 1-second accumulator: `sumsq_1s`, `samples_1s`, `t1_start_ms`. -/
structure Acc1s where
  sumsq_1s : ℚ
  samples_1s : ℕ
  t1_start_ms : ℕ
deriving DecidableEq

/-- `accumulateAudioData`: `sumsq_1s += sumsq_block; samples_1s += num_samples;`. -/
def accumulateAudioData (acc : Acc1s) (sumsq_block : ℚ) (num_samples : ℕ) : Acc1s :=
  { acc with sumsq_1s := acc.sumsq_1s + sumsq_block,
             samples_1s := acc.samples_1s + num_samples }

/-- The 1-second window block of `loop`: when `now - t1_start_ms >= 1000`,
compute `rms_1s = sqrt(sumsq_1s / samples_1s)` (the library `sqrt`
abstracted as `sqrtF`), convert to dB, push to the queue with the
drop-oldest policy, and reset the accumulator and window start. -/
def windowBoundary (sqrtF log10F : ℚ → ℚ) (now : ℕ) (acc : Acc1s) (q : List ℚ) :
    Acc1s × List ℚ :=
  if 1000 ≤ now - acc.t1_start_ms then
    let rms_1s := sqrtF (acc.sumsq_1s / (acc.samples_1s : ℚ))
    let dBA_1s := convertToDecibels log10F rms_1s
    (⟨0, 0, now⟩, qpush dBA_1s q)
  else (acc, q)

/-- `readI2SAudioData`: fails when `i2s_read` fails (`driver = none`);
otherwise `num_samples = bytes_read / sizeof(int32_t)` samples are in the
buffer and the call succeeds iff `num_samples > 0`. -/
def readI2SAudioData : Option (List ℤ) → Bool × List ℤ
  | none => (false, [])
  | some raw => (decide (0 < raw.length), raw)

/-- The whole mutable state of the sampling loop. -/
structure LoopState where
  hpf : OnePoleHPF
  acc : Acc1s
  sendQueue : List ℚ
  currentDb : ℚ
  ring : RingState
  lastDisplayMs : ℕ

/-- `SAMPLE_EVERY_MS = 120`. -/
def SAMPLE_EVERY_MS : ℕ := 120

/-- `processDisplayUpdate`: every `SAMPLE_EVERY_MS` ms, `updateDisplay`
pushes `currentDb` into the ring and redraws (rendering itself has no
observable state here). -/
def processDisplayUpdate (now : ℕ) (st : LoopState) : LoopState :=
  if SAMPLE_EVERY_MS ≤ now - st.lastDisplayMs then
    { st with lastDisplayMs := now, ring := pushSample st.currentDb st.ring }
  else st

/-- One iteration of `loop`, with the driver result and the `millis()`
reading as inputs: skip the cycle if the read fails, otherwise condition
the block, update the instantaneous dB, accumulate into the 1-second
window, run the window boundary, and finally the display cadence. -/
def loopStep (sqrtF log10F : ℚ → ℚ) (driver : Option (List ℤ)) (now : ℕ)
    (st : LoopState) : LoopState :=
  let rd := readI2SAudioData driver
  if rd.1 then
    let raw := rd.2
    let num_samples := raw.length
    let mean := calculateMean raw
    let sq := calculateSumOfSquares st.hpf raw mean
    let rms_block := sqrtF (sq.1 / (num_samples : ℚ))
    let newDb := convertToDecibels log10F rms_block
    let acc1 := accumulateAudioData st.acc sq.1 num_samples
    let wb := windowBoundary sqrtF log10F now acc1 st.sendQueue
    processDisplayUpdate now
      { hpf := sq.2, acc := wb.1, sendQueue := wb.2, currentDb := newDb,
        ring := st.ring, lastDisplayMs := st.lastDisplayMs }
  else st

theorem processDisplayUpdate_currentDb (now : ℕ) (st : LoopState) :
    (processDisplayUpdate now st).currentDb = st.currentDb := by
  unfold processDisplayUpdate
  split_ifs <;> rfl

theorem processDisplayUpdate_sendQueue (now : ℕ) (st : LoopState) :
    (processDisplayUpdate now st).sendQueue = st.sendQueue := by
  unfold processDisplayUpdate
  split_ifs <;> rfl

theorem processDisplayUpdate_acc (now : ℕ) (st : LoopState) :
    (processDisplayUpdate now st).acc = st.acc := by
  unfold processDisplayUpdate
  split_ifs <;> rfl

theorem processDisplayUpdate_hpf (now : ℕ) (st : LoopState) :
    (processDisplayUpdate now st).hpf = st.hpf := by
  unfold processDisplayUpdate
  split_ifs <;> rfl

theorem readI2SAudioData_some (raw : List ℤ) (h : 0 < raw.length) :
    readI2SAudioData (some raw) = (true, raw) := by
  simp [readI2SAudioData, h]

/-- C6: the epsilon floor is strictly positive, the argument handed to the
(abstract) `log10f` is strictly positive for every nonnegative RMS input
including 0, the conversion is exactly
`20 * log10(max(rms, eps)) + CAL_OFFSET_DBA`, and both the per-block
instantaneous path of `loop` and the 1-second window path convert through
this one function. -/
theorem decibel_conversion_shared_and_total :
    0 < EPS_F ∧
    (∀ r : ℚ, 0 ≤ r → 0 < max r EPS_F ∧ EPS_F ≤ max r EPS_F) ∧
    (∀ (l : ℚ → ℚ) (r : ℚ),
      convertToDecibels l r = 20 * l (max r EPS_F) + CAL_OFFSET_DBA) ∧
    (∀ (s l : ℚ → ℚ) (raw : List ℤ) (now : ℕ) (st : LoopState),
      (readI2SAudioData (some raw)).1 = true →
      (loopStep s l (some raw) now st).currentDb =
        convertToDecibels l
          (s ((calculateSumOfSquares st.hpf raw (calculateMean raw)).1 / (raw.length : ℚ)))) ∧
    (∀ (s l : ℚ → ℚ) (now : ℕ) (acc : Acc1s) (q : List ℚ),
      1000 ≤ now - acc.t1_start_ms →
      (windowBoundary s l now acc q).2 =
        qpush (convertToDecibels l (s (acc.sumsq_1s / (acc.samples_1s : ℚ)))) q) := by
  refine ⟨by norm_num [EPS_F], ?_, ?_, ?_, ?_⟩
  · intro r _hr
    have heps : (0 : ℚ) < EPS_F := by norm_num [EPS_F]
    exact ⟨lt_of_lt_of_le heps (le_max_right r EPS_F), le_max_right r EPS_F⟩
  · intro l r
    rfl
  · intro s l raw now st h
    have hlen : 0 < raw.length := by
      by_contra hc
      simp [readI2SAudioData, hc] at h
    have hread : readI2SAudioData (some raw) = (true, raw) := readI2SAudioData_some raw hlen
    simp only [loopStep, hread, if_true]
    rw [processDisplayUpdate_currentDb]
  · intro s l now acc q h
    unfold windowBoundary
    rw [if_pos h]

/-- Witness for the conversion theorem: per-block path evaluated at a
one-sample block over the fresh loop state, and the window path at the
1000 ms boundary. -/
theorem decibel_conversion_shared_and_total_witness :
    (loopStep id id (some [16384]) 0
        ⟨hpfInit, ⟨0, 0, 0⟩, [], 50, ⟨fun _ => 50, 0⟩, 0⟩).currentDb =
      convertToDecibels id
        (id ((calculateSumOfSquares hpfInit [16384] (calculateMean [16384])).1 / ((1 : ℕ) : ℚ))) ∧
    (windowBoundary id id 1000 ⟨2, 4, 0⟩ []).2 =
      qpush (convertToDecibels id (id ((2 : ℚ) / ((4 : ℕ) : ℚ)))) [] :=
  ⟨decibel_conversion_shared_and_total.2.2.2.1 id id [16384] 0
      ⟨hpfInit, ⟨0, 0, 0⟩, [], 50, ⟨fun _ => 50, 0⟩, 0⟩ (by decide),
   decibel_conversion_shared_and_total.2.2.2.2 id id 1000 ⟨2, 4, 0⟩ [] (by norm_num)⟩

theorem accumulate_foldl (blocks : List (ℚ × ℕ)) (a : Acc1s) :
    blocks.foldl (fun acc p => accumulateAudioData acc p.1 p.2) a =
      ⟨a.sumsq_1s + (blocks.map Prod.fst).sum,
       a.samples_1s + (blocks.map Prod.snd).sum, a.t1_start_ms⟩ := by
  induction blocks generalizing a with
  | nil => simp
  | cons p ps ih =>
    rw [List.foldl_cons, ih]
    simp only [accumulateAudioData, List.map_cons, List.sum_cons]
    congr 1 <;> ring

/-- C5: accumulating blocks with sums of squares s1..sk and counts n1..nk
inside one window pools them into (s1+...+sk, n1+...+nk), and the window
boundary emits the dB conversion of sqrt of the pooled ratio
(s1+...+sk)/(n1+...+nk) — not any average of per-block RMS values — then
resets the accumulator and the window start to `now`. -/
theorem one_second_pooled_rms (blocks : List (ℚ × ℕ)) (t : ℕ) :
    blocks.foldl (fun acc p => accumulateAudioData acc p.1 p.2) ⟨0, 0, t⟩ =
      (⟨(blocks.map Prod.fst).sum, (blocks.map Prod.snd).sum, t⟩ : Acc1s) ∧
    (∀ (s l : ℚ → ℚ) (now : ℕ) (q : List ℚ), 1000 ≤ now - t →
      windowBoundary s l now
          (blocks.foldl (fun acc p => accumulateAudioData acc p.1 p.2) ⟨0, 0, t⟩) q =
        (⟨0, 0, now⟩,
         qpush (convertToDecibels l
           (s ((blocks.map Prod.fst).sum / (((blocks.map Prod.snd).sum : ℕ) : ℚ)))) q)) := by
  have hfold : blocks.foldl (fun acc p => accumulateAudioData acc p.1 p.2) ⟨0, 0, t⟩ =
      (⟨(blocks.map Prod.fst).sum, (blocks.map Prod.snd).sum, t⟩ : Acc1s) := by
    rw [accumulate_foldl]
    congr 1 <;> simp
  refine ⟨hfold, ?_⟩
  intro s l now q h
  rw [hfold]
  unfold windowBoundary
  rw [if_pos h]

/-- Witness for the pooled-RMS theorem: two blocks (1, 1) and (2, 1)
accumulated from a reset accumulator, window elapsing at 1000 ms. -/
theorem one_second_pooled_rms_witness :
    windowBoundary id id 1000
        (([((1 : ℚ), (1 : ℕ)), (2, 1)]).foldl
          (fun acc p => accumulateAudioData acc p.1 p.2) ⟨0, 0, 0⟩) [] =
      (⟨0, 0, 1000⟩,
       qpush (convertToDecibels id
         (id ((([((1 : ℚ), (1 : ℕ)), (2, 1)]).map Prod.fst).sum /
           ((((([((1 : ℚ), (1 : ℕ)), (2, 1)]).map Prod.snd).sum : ℕ)) : ℚ)))) []) :=
  (one_second_pooled_rms [((1 : ℚ), (1 : ℕ)), (2, 1)] 0).2 id id 1000 [] (by norm_num)

/-- The conditioned sample stream of one block: mean subtracted, normalized
by the full-scale divisor (spec view of the per-sample preprocessing in
`calculateSumOfSquares`). -/
def normalizeBlock (raw : List ℤ) (mean : ℚ) : List ℚ :=
  raw.map fun r => (((shift14 r : ℤ) : ℚ) - mean) / NORM_DIV

/-- Threads the one-pole high-pass filter over a list of samples, returning
the filtered outputs and the final filter state. -/
def hpfRun (st : OnePoleHPF) : List ℚ → List ℚ × OnePoleHPF
  | [] => ([], st)
  | x :: xs =>
    let p := st.process x
    let r := hpfRun p.1 xs
    (p.2 :: r.1, r.2)

theorem cssStep_foldl (mean : ℚ) (raw : List ℤ) :
    ∀ (h : OnePoleHPF) (c : ℚ),
      raw.foldl (cssStep mean) (c, h) =
        (c + ((hpfRun h (normalizeBlock raw mean)).1.map fun y => y * y).sum,
         (hpfRun h (normalizeBlock raw mean)).2) := by
  induction raw with
  | nil =>
    intro h c
    simp [normalizeBlock, hpfRun]
  | cons r rs ih =>
    intro h c
    rw [List.foldl_cons]
    show rs.foldl (cssStep mean) (cssStep mean (c, h) r) = _
    simp only [cssStep, normalizeBlock, List.map_cons, hpfRun]
    rw [ih]
    simp only [Prod.mk.injEq, normalizeBlock, List.map_cons, List.sum_cons, and_true]
    ring

/-- C7: `calculateSumOfSquares` is exactly: normalize the block (subtract
the block mean computed first by `calculateMean`, divide by `NORM_DIV`),
thread the one-pole high-pass filter over the normalized stream, and sum
the squares of the filtered outputs; one filter step realizes the
recurrence `y[n] = a * (y[n-1] + x[n] - x[n-1])` while keeping `a` fixed;
filtering a concatenation of blocks continues from the state the previous
block left (never resetting it), and `loop` threads the state returned by
one block's processing into the next iteration; the firmware's filter
constants are `a = 0.995`, zero-initialized state. -/
theorem signal_conditioner_hpf :
    (∀ (hpf : OnePoleHPF) (raw : List ℤ) (mean : ℚ),
      calculateSumOfSquares hpf raw mean =
        (((hpfRun hpf (normalizeBlock raw mean)).1.map fun y => y * y).sum,
         (hpfRun hpf (normalizeBlock raw mean)).2)) ∧
    (∀ (st : OnePoleHPF) (x : ℚ),
      st.process x =
        (⟨st.a, st.a * (st.y + x - st.x_prev), x⟩, st.a * (st.y + x - st.x_prev)) ∧
      (st.process x).1.a = st.a) ∧
    (∀ (st : OnePoleHPF) (xs ys : List ℚ),
      hpfRun st (xs ++ ys) =
        ((hpfRun st xs).1 ++ (hpfRun (hpfRun st xs).2 ys).1,
         (hpfRun (hpfRun st xs).2 ys).2)) ∧
    (∀ (s l : ℚ → ℚ) (raw : List ℤ) (now : ℕ) (st : LoopState),
      (readI2SAudioData (some raw)).1 = true →
      (loopStep s l (some raw) now st).hpf =
        (calculateSumOfSquares st.hpf raw (calculateMean raw)).2) ∧
    (hpfInit.a = 199 / 200 ∧ hpfInit.y = 0 ∧ hpfInit.x_prev = 0) := by
  refine ⟨?_, ?_, ?_, ?_, by refine ⟨rfl, rfl, rfl⟩⟩
  · intro hpf raw mean
    unfold calculateSumOfSquares
    rw [cssStep_foldl]
    rw [zero_add]
  · intro st x
    exact ⟨rfl, rfl⟩
  · intro st xs ys
    induction xs generalizing st with
    | nil => simp [hpfRun]
    | cons x xs ih =>
      simp only [List.cons_append, hpfRun, List.append_eq, ih]
  · intro s l raw now st h
    have hlen : 0 < raw.length := by
      by_contra hc
      simp [readI2SAudioData, hc] at h
    have hread : readI2SAudioData (some raw) = (true, raw) := readI2SAudioData_some raw hlen
    simp only [loopStep, hread, if_true]
    rw [processDisplayUpdate_hpf]

/-- Witness for the signal-conditioner theorem: the loop threads the filter
state of the one-sample block [16384] out of its first iteration. -/
theorem signal_conditioner_hpf_witness :
    (loopStep id id (some [16384]) 0
        ⟨hpfInit, ⟨0, 0, 0⟩, [], 50, ⟨fun _ => 50, 0⟩, 0⟩).hpf =
      (calculateSumOfSquares hpfInit [16384] (calculateMean [16384])).2 :=
  signal_conditioner_hpf.2.2.2.1 id id [16384] 0
    ⟨hpfInit, ⟨0, 0, 0⟩, [], 50, ⟨fun _ => 50, 0⟩, 0⟩ (by decide)

/-- C10: `readI2SAudioData` succeeds exactly when the driver delivered a
block with a strictly positive sample count; a failed read skips the whole
loop iteration unchanged; hence the divisors `num_samples` used by
`calculateMean` and by the per-block RMS are nonzero on every processed
block, and dividing the shifted-sample sum by it is a genuine division
(multiplying back recovers the sum). -/
theorem read_guard_protects_divisions :
    (∀ driver : Option (List ℤ),
      (readI2SAudioData driver).1 = true ↔
        ∃ raw : List ℤ, driver = some raw ∧ 0 < raw.length) ∧
    (∀ (s l : ℚ → ℚ) (driver : Option (List ℤ)) (now : ℕ) (st : LoopState),
      (readI2SAudioData driver).1 = false → loopStep s l driver now st = st) ∧
    (∀ raw : List ℤ, (readI2SAudioData (some raw)).1 = true →
      ((raw.length : ℚ) ≠ 0)) ∧
    (∀ raw : List ℤ, 0 < raw.length →
      calculateMean raw * (raw.length : ℚ) = (((raw.map shift14).sum : ℤ) : ℚ)) := by
  refine ⟨?_, ?_, ?_, ?_⟩
  · intro driver
    cases driver with
    | none => simp [readI2SAudioData]
    | some raw => simp [readI2SAudioData]
  · intro s l driver now st h
    simp only [loopStep, h]
    rfl
  · intro raw h
    have hlen : 0 < raw.length := by
      by_contra hc
      simp [readI2SAudioData, hc] at h
    exact_mod_cast Nat.pos_iff_ne_zero.mp hlen
  · intro raw h
    have hne : ((raw.length : ℚ)) ≠ 0 := by
      exact_mod_cast Nat.pos_iff_ne_zero.mp h
    unfold calculateMean
    exact div_mul_cancel₀ _ hne

/-- Witness for the read guard theorem: a one-sample block passes the
guard, a failed driver read leaves a concrete loop state unchanged. -/
theorem read_guard_protects_divisions_witness :
    (readI2SAudioData (some [7])).1 = true ∧
    loopStep id id none 0 ⟨hpfInit, ⟨0, 0, 0⟩, [], 50, ⟨fun _ => 50, 0⟩, 0⟩ =
      ⟨hpfInit, ⟨0, 0, 0⟩, [], 50, ⟨fun _ => 50, 0⟩, 0⟩ ∧
    calculateMean [7] * (([7] : List ℤ).length : ℚ) =
      (((([7] : List ℤ).map shift14).sum : ℤ) : ℚ) :=
  ⟨(read_guard_protects_divisions.1 (some [7])).mpr ⟨[7], rfl, by norm_num⟩,
   read_guard_protects_divisions.2.1 id id none 0
     ⟨hpfInit, ⟨0, 0, 0⟩, [], 50, ⟨fun _ => 50, 0⟩, 0⟩ rfl,
   read_guard_protects_divisions.2.2.2 [7] (by norm_num)⟩

/-- C2 counterexample: the window-boundary step of `loop` has no
zero-sample guard. Evaluated on an elapsed window whose accumulator holds
`samples_1s = 0`, it still enqueues a reading (here with `sqrt` and `log10`
instantiated by `id`): the queue grows from empty to one entry, instead of
restarting without emitting. -/
theorem zero_sample_window_still_emits :
    (windowBoundary id id 1000 ⟨0, 0, 0⟩ []).2 ≠ [] := by
  have h : (windowBoundary id id 1000 ⟨0, 0, 0⟩ []).2 =
      [convertToDecibels id (id ((0 : ℚ) / ((0 : ℕ) : ℚ)))] := rfl
  rw [h]
  exact List.cons_ne_nil _ _

/-- C2 (amended): the loop evaluates the window boundary only after a
successful read of a non-empty block has been accumulated, so the
accumulator handed to `windowBoundary` always has a strictly positive
`samples_1s`, and a failed read leaves the whole state (boundary included)
untouched; thus a zero-sample boundary evaluation is unreachable, even
though `windowBoundary` itself would emit a reading on one. -/
theorem window_boundary_sees_positive_samples :
    (∀ (s l : ℚ → ℚ) (raw : List ℤ) (now : ℕ) (st : LoopState),
      (readI2SAudioData (some raw)).1 = true →
      0 < (accumulateAudioData st.acc
            (calculateSumOfSquares st.hpf raw (calculateMean raw)).1 raw.length).samples_1s ∧
      (loopStep s l (some raw) now st).sendQueue =
        (windowBoundary s l now
          (accumulateAudioData st.acc
            (calculateSumOfSquares st.hpf raw (calculateMean raw)).1 raw.length)
          st.sendQueue).2 ∧
      (loopStep s l (some raw) now st).acc =
        (windowBoundary s l now
          (accumulateAudioData st.acc
            (calculateSumOfSquares st.hpf raw (calculateMean raw)).1 raw.length)
          st.sendQueue).1) ∧
    (∀ (s l : ℚ → ℚ) (driver : Option (List ℤ)) (now : ℕ) (st : LoopState),
      (readI2SAudioData driver).1 = false → loopStep s l driver now st = st) := by
  constructor
  · intro s l raw now st h
    have hlen : 0 < raw.length := by
      by_contra hc
      simp [readI2SAudioData, hc] at h
    have hread : readI2SAudioData (some raw) = (true, raw) := readI2SAudioData_some raw hlen
    refine ⟨?_, ?_, ?_⟩
    · simp only [accumulateAudioData]
      omega
    · simp only [loopStep, hread, if_true]
      rw [processDisplayUpdate_sendQueue]
    · simp only [loopStep, hread, if_true]
      rw [processDisplayUpdate_acc]
  · intro s l driver now st h
    simp only [loopStep, h]
    rfl

/-- Witness for the amended window theorem: a one-sample block accumulated
onto a fresh state gives the boundary a positive sample count. -/
theorem window_boundary_sees_positive_samples_witness :
    0 < (accumulateAudioData (⟨0, 0, 0⟩ : Acc1s)
          (calculateSumOfSquares hpfInit [16384] (calculateMean [16384])).1
          ([16384] : List ℤ).length).samples_1s :=
  (window_boundary_sees_positive_samples.1 id id [16384] 0
    ⟨hpfInit, ⟨0, 0, 0⟩, [], 50, ⟨fun _ => 50, 0⟩, 0⟩ (by decide)).1

/-! ### Producer / sender-task interleaving (`sendTask` and the queue)

Readings are identified by their production sequence number, so "older"
and "newer" are comparisons of these identifiers. The producer is the
1-second boundary of `loop` (`qpush`); the sender task receives, posts,
and only after the post drains the backlog down to a single entry
(`while (uxQueueMessagesWaiting(sendQueue) > 1) xQueueReceive(...)`). -/

/-- Control location of the sender task inside its `for (;;)` body. -/
inductive SenderPhase where
  | waiting
  | posting (v : ℕ)
  | draining
deriving DecidableEq

/-- The state shared between the producer and the sender task: the FIFO
queue (head oldest), the next production id, and the sender's phase. -/
structure SysState where
  queue : List ℕ
  nextId : ℕ
  phase : SenderPhase
deriving DecidableEq

/-- Interleaved small steps of the producer and the sender task:
`produce` is the loop's 1-second push (with the drop-oldest policy);
`recv` is the blocking `xQueueReceive` at the top of `sendTask`;
`post` is the `postToBackend(dba)` call on the received reading;
`drainRecv` is one iteration of the drain loop, which runs only while more
than one message is waiting and always removes the oldest;
`drainDone` exits the drain loop and returns to the blocking receive. -/
inductive SysStep : SysState → SysState → Prop where
  | produce (s : SysState) :
      SysStep s ⟨qpush s.nextId s.queue, s.nextId + 1, s.phase⟩
  | recv (s : SysState) (v : ℕ) (rest : List ℕ)
      (hphase : s.phase = SenderPhase.waiting) (hq : s.queue = v :: rest) :
      SysStep s ⟨rest, s.nextId, SenderPhase.posting v⟩
  | post (s : SysState) (v : ℕ) (hphase : s.phase = SenderPhase.posting v) :
      SysStep s ⟨s.queue, s.nextId, SenderPhase.draining⟩
  | drainRecv (s : SysState) (v : ℕ) (rest : List ℕ)
      (hphase : s.phase = SenderPhase.draining) (hq : s.queue = v :: rest)
      (hlen : 1 < s.queue.length) :
      SysStep s ⟨rest, s.nextId, SenderPhase.draining⟩
  | drainDone (s : SysState)
      (hphase : s.phase = SenderPhase.draining) (hlen : s.queue.length ≤ 1) :
      SysStep s ⟨s.queue, s.nextId, SenderPhase.waiting⟩

/-- Initial state: empty queue, sender blocked on the receive. -/
def initSys : SysState := ⟨[], 0, SenderPhase.waiting⟩

/-- States reachable from the initial state. -/
inductive Reachable : SysState → Prop where
  | init : Reachable initSys
  | step {s s' : SysState} : Reachable s → SysStep s s' → Reachable s'

/-- Queue sanity: pending ids are strictly increasing (FIFO, newest last)
and all below the next production id. -/
def QueueInv (s : SysState) : Prop :=
  s.queue.Chain' (· < ·) ∧ ∀ w ∈ s.queue, w < s.nextId

theorem qpush_queueInv {q : List ℕ} {n : ℕ} (hch : q.Chain' (· < ·))
    (hlt : ∀ w ∈ q, w < n) :
    (qpush n q).Chain' (· < ·) ∧ ∀ w ∈ qpush n q, w < n + 1 := by
  constructor
  · unfold qpush
    split_ifs
    · refine hch.append (List.chain'_singleton n) ?_
      intro x hx y hy
      have hyn : n = y := by simpa using hy
      subst hyn
      exact hlt x (List.mem_of_mem_getLast? hx)
    · rw [List.drop_one]
      refine (List.Chain'.tail hch).append (List.chain'_singleton n) ?_
      intro x hx y hy
      have hyn : n = y := by simpa using hy
      subst hyn
      exact hlt x (List.mem_of_mem_tail (List.mem_of_mem_getLast? hx))
  · intro w hw
    unfold qpush at hw
    split_ifs at hw <;> rw [List.mem_append] at hw
    · rcases hw with hw | hw
      · exact Nat.lt_succ_of_lt (hlt w hw)
      · simp at hw
        omega
    · rcases hw with hw | hw
      · exact Nat.lt_succ_of_lt (hlt w (List.mem_of_mem_drop hw))
      · simp at hw
        omega

theorem reachable_queueInv : ∀ s : SysState, Reachable s → QueueInv s := by
  intro s h
  induction h with
  | init => exact ⟨List.chain'_nil, by intro w hw; cases hw⟩
  | step hr hs ih =>
    obtain ⟨hch, hlt⟩ := ih
    cases hs with
    | produce => exact qpush_queueInv hch hlt
    | recv v rest hphase hq =>
      rw [hq] at hch hlt
      exact ⟨hch.tail, fun w hw => hlt w (List.mem_cons_of_mem v hw)⟩
    | post v hphase => exact ⟨hch, hlt⟩
    | drainRecv v rest hphase hq hlen =>
      rw [hq] at hch hlt
      exact ⟨hch.tail, fun w hw => hlt w (List.mem_cons_of_mem v hw)⟩
    | drainDone hphase hlen => exact ⟨hch, hlt⟩

/-- C1 as stated by the spec: whenever the sender performs the POST while
more than one reading is pending, the posted reading is at least as new as
every pending one (no reading older than a pending one is ever sent). -/
def SenderSendsNewestOnly : Prop :=
  ∀ (s : SysState) (v : ℕ), Reachable s → s.phase = SenderPhase.posting v →
    1 < s.queue.length → ∀ w ∈ s.queue, w ≤ v

theorem sender_reach_posting : Reachable ⟨[1, 2], 3, SenderPhase.posting 0⟩ := by
  have h1 : Reachable ⟨[0], 1, SenderPhase.waiting⟩ :=
    Reachable.step Reachable.init (SysStep.produce initSys)
  have h2 : Reachable ⟨[], 1, SenderPhase.posting 0⟩ :=
    Reachable.step h1 (SysStep.recv _ 0 [] rfl rfl)
  have h3 : Reachable ⟨[1], 2, SenderPhase.posting 0⟩ :=
    Reachable.step h2 (SysStep.produce _)
  exact Reachable.step h3 (SysStep.produce _)

theorem sender_reach_draining : Reachable ⟨[1, 2], 3, SenderPhase.draining⟩ :=
  Reachable.step sender_reach_posting (SysStep.post _ 0 rfl)

/-- C1 counterexample: the sender drains the backlog only AFTER the POST
(`sendTask` posts the received reading first), so it can post reading 0
while the strictly newer readings 1 and 2 are pending: produce 0; receive
it; produce 1 and 2 while the send is in flight; POST. The spec's "drains
all older backlog before issuing the HTTP POST / a reading older than
another one still pending is never sent" is therefore false of the code. -/
theorem sender_posts_stale_reading : ¬ SenderSendsNewestOnly := by
  intro hclaim
  have h2mem : (2 : ℕ) ∈ ([1, 2] : List ℕ) := by decide
  have := hclaim ⟨[1, 2], 3, SenderPhase.posting 0⟩ 0 sender_reach_posting rfl
    (by decide) 2 h2mem
  exact absurd this (by decide)

/-- C1 (amended): after the POST, every iteration of the drain loop removes
the oldest pending reading and fires only while more than one is pending;
it never discards the newest (the queue's last, which is the maximum id by
the FIFO invariant), and when the sender leaves the drain loop at most one
reading — that newest one — remains. (Drain steps are exactly the steps
from a `draining` phase that keep `nextId`.) -/
theorem sender_drain_keeps_newest :
    ∀ (s s' : SysState), Reachable s → SysStep s s' →
      s.phase = SenderPhase.draining → s.nextId = s'.nextId →
      s'.queue.getLast? = s.queue.getLast? ∧
      (s'.phase = SenderPhase.waiting → s'.queue = s.queue ∧ s.queue.length ≤ 1) ∧
      (s'.phase = SenderPhase.draining → s'.queue = s.queue.drop 1 ∧ 1 < s.queue.length) ∧
      s'.queue.Chain' (· < ·) := by
  intro s s' hr hs hphase hnext
  cases hs with
  | produce => simp at hnext
  | recv v rest hph hq =>
    rw [hphase] at hph
    exact absurd hph (by decide)
  | post v hph =>
    rw [hphase] at hph
    simp at hph
  | drainRecv v rest hph hq hlen =>
    have hinv := (reachable_queueInv s hr).1
    rw [hq] at hinv hlen ⊢
    have hrest : rest ≠ [] := by
      intro hre
      rw [hre] at hlen
      simp at hlen
    obtain ⟨c, t, hct⟩ := List.exists_cons_of_ne_nil hrest
    subst hct
    refine ⟨List.getLast?_cons_cons.symm, ?_, ?_, hinv.tail⟩
    · intro hww
      simp at hww
    · intro _
      refine ⟨rfl, ?_⟩
      simp only [List.length_cons]
      omega
  | drainDone hph hlen =>
    have hinv := (reachable_queueInv s hr).1
    refine ⟨rfl, fun _ => ⟨rfl, hlen⟩, ?_, hinv⟩
    intro hww
    simp at hww

/-- Witness for the drain theorem: from the reachable draining state with
backlog [1, 2], one drain iteration removes the oldest (1), preserves the
newest (2) as the queue's last, and leaves the queue sorted. -/
theorem sender_drain_keeps_newest_witness :
    ((⟨[2], 3, SenderPhase.draining⟩ : SysState)).queue.getLast? =
      ((⟨[1, 2], 3, SenderPhase.draining⟩ : SysState)).queue.getLast? ∧
    (((⟨[2], 3, SenderPhase.draining⟩ : SysState)).phase = SenderPhase.waiting →
      ((⟨[2], 3, SenderPhase.draining⟩ : SysState)).queue =
        ((⟨[1, 2], 3, SenderPhase.draining⟩ : SysState)).queue ∧
      ((⟨[1, 2], 3, SenderPhase.draining⟩ : SysState)).queue.length ≤ 1) ∧
    (((⟨[2], 3, SenderPhase.draining⟩ : SysState)).phase = SenderPhase.draining →
      ((⟨[2], 3, SenderPhase.draining⟩ : SysState)).queue =
        ((⟨[1, 2], 3, SenderPhase.draining⟩ : SysState)).queue.drop 1 ∧
      1 < ((⟨[1, 2], 3, SenderPhase.draining⟩ : SysState)).queue.length) ∧
    ((⟨[2], 3, SenderPhase.draining⟩ : SysState)).queue.Chain' (· < ·) :=
  sender_drain_keeps_newest ⟨[1, 2], 3, SenderPhase.draining⟩
    ⟨[2], 3, SenderPhase.draining⟩ sender_reach_draining
    (SysStep.drainRecv _ 1 [2] rfl rfl (by decide)) rfl rfl

end NoiseSensor
